import Mathlib

/-!
Verification of the core correction/aggregation logic of `src/app.py`
(batch spelling-correction and error-profiling tool).

The Python code is shallowly embedded here:
* Python string casing predicates/operations (`isalpha`, `isupper`,
  `istitle`, `lower`, `upper`, `capitalize`) are modelled over the ASCII
  character model of Lean strings (char list based).
* The external collaborators (NLTK tokenizer/detokenizer, the
  pyspellchecker dictionary and the POS tagger) are parameters of the
  embedded functions, exactly as the spec treats them.
* `analyze_and_correct` (app.py lines 50-90) is embedded as a fold over
  the candidate (index, lower-cased word) pairs, mutating a state record
  just as the Python loop mutates `corrected_tokens`, `corrections`,
  `error_count` and `misspelled_list`.
-/

/-- Python `str.isalpha` on the ASCII model: nonempty and all alphabetic. -/
def pyIsAlpha (s : String) : Bool :=
  !s.data.isEmpty && s.data.all Char.isAlpha

/-- Python `str.isupper` on the ASCII model: at least one cased (here:
alphabetic) character, and every cased character is uppercase. -/
def pyIsUpper (s : String) : Bool :=
  s.data.any Char.isAlpha && s.data.all (fun c => !c.isAlpha || c.isUpper)

/-- Helper for Python `str.istitle`: walks the characters carrying whether
the previous character was cased and whether any cased character was seen. -/
def isTitleAux : List Char → Bool → Bool → Bool
  | [], _, hasCased => hasCased
  | c :: rest, prevCased, hasCased =>
    if c.isUpper then
      if prevCased then false else isTitleAux rest true true
    else if c.isLower then
      if prevCased then isTitleAux rest true true else false
    else
      isTitleAux rest false hasCased

/-- Python `str.istitle` on the ASCII model: uppercase letters follow only
uncased characters, lowercase letters follow only cased ones, and at least
one cased character occurs. -/
def pyIsTitle (s : String) : Bool :=
  isTitleAux s.data false false

/-- Python `str.lower` on the ASCII model. -/
def pyLower (s : String) : String :=
  ⟨s.data.map Char.toLower⟩

/-- Python `str.upper` on the ASCII model. -/
def pyUpper (s : String) : String :=
  ⟨s.data.map Char.toUpper⟩

/-- Python `str.capitalize` on the ASCII model: first character uppercased,
the rest lowercased. -/
def pyCapitalize (s : String) : String :=
  match s.data with
  | [] => ""
  | c :: rest => ⟨c.toUpper :: rest.map Char.toLower⟩

/-- `is_candidate_word` (app.py line 44-45): the token is a string (always
true in this typed model), alphabetic, longer than 2 characters, and not
fully uppercase. -/
def is_candidate_word (tok : String) : Bool :=
  pyIsAlpha tok && decide (2 < tok.data.length) && !pyIsUpper tok

/-- `count_real_words` (app.py line 47-48), parameterized by the external
tokenizer collaborator (`word_tokenize`). -/
def count_real_words (tokenizeF : String → List String) (text : String) : Nat :=
  (tokenizeF text).countP is_candidate_word

/-- The dictionary collaborator (pyspellchecker `SpellChecker`):
`unknown w` says whether the (already lower-cased) word is absent from the
recognized vocabulary; `correction w` is the best suggestion, `none` when
the library returns a falsy value. -/
structure SpellDict where
  unknown : String → Bool
  correction : String → Option String

/-- Builds the `zip(candidate_indices, candidate_words)` list of app.py
lines 52-53: pairs `(i, tokens[i].lower())` for candidate positions,
numbering positions from `i0`. -/
def candAux (i0 : Nat) : List String → List (Nat × String)
  | [] => []
  | t :: ts =>
    if is_candidate_word t then (i0, pyLower t) :: candAux (i0 + 1) ts
    else candAux (i0 + 1) ts

/-- The candidate `(index, lower-cased word)` pairs of a token list. -/
def candidatePairs (tokens : List String) : List (Nat × String) :=
  candAux 0 tokens

/-- The effective suggestion of app.py lines 66-69: the dictionary's
suggestion, falling back to the original surface form when the suggestion
is falsy (`None` or the empty string). -/
def effSuggestion (spell : SpellDict) (surface lw : String) : String :=
  match spell.correction lw with
  | none => surface
  | some s => if s = "" then surface else s

/-- Casing restoration of app.py lines 75-80: title-case surfaces get the
capitalized suggestion, fully-uppercase surfaces the upper-cased one,
anything else the suggestion verbatim. -/
def restoreCasing (surface suggestion : String) : String :=
  if pyIsTitle surface then pyCapitalize suggestion
  else if pyIsUpper surface then pyUpper suggestion
  else suggestion

/-- Python `dict.setdefault` on an association list kept in insertion
order: insert `(k, v)` only when `k` is not yet a key. -/
def setdefault (m : List (String × String)) (k v : String) : List (String × String) :=
  if m.any (fun kv => kv.1 = k) then m else m ++ [(k, v)]

/-- The mutable state of the correction loop of app.py lines 56-82. -/
structure CorrState where
  corrected : List String
  corrections : List (String × String)
  error_count : Nat
  misspelled : List String
deriving DecidableEq, Repr

/-- One iteration of the loop of app.py lines 63-82 for the pair
`(idx, lw)`: when `lw` is unknown, read the surface form from the original
tokens, compute the effective suggestion, record it with `setdefault`,
count the error, append the surface to the misspelled list, and overwrite
the token at `idx` with the case-restored suggestion. -/
def corrStep (spell : SpellDict) (tokens : List String) (st : CorrState)
    (p : Nat × String) : CorrState :=
  if spell.unknown p.2 then
    let surface := tokens.getD p.1 ""
    let suggestion := effSuggestion spell surface p.2
    { corrected := st.corrected.set p.1 (restoreCasing surface suggestion)
      corrections := setdefault st.corrections surface suggestion
      error_count := st.error_count + 1
      misspelled := st.misspelled ++ [surface] }
  else st

/-- `analyze_and_correct` (app.py lines 50-90) at the token level: fold the
correction step over the candidate pairs, starting from the unmodified
token list and empty statistics. -/
def analyze_and_correct (spell : SpellDict) (tokens : List String) : CorrState :=
  (candidatePairs tokens).foldl (corrStep spell tokens)
    { corrected := tokens, corrections := [], error_count := 0, misspelled := [] }

/-- `pos_profile` (app.py lines 87-88), parameterized by the external POS
tagger collaborator: the `Counter` of the tags assigned to the misspelled
surface forms, represented as its count function. -/
def pos_profile (tagF : List String → List (String × String))
    (ws : List String) : String → Nat :=
  fun tag => ((tagF ws).map Prod.snd).count tag

/-- `Counter.update` (app.py line 118): per-tag sum of two POS profiles. -/
def mergeProfile (p q : String → Nat) : String → Nat :=
  fun tag => p tag + q tag

/-- The per-document error rate of app.py line 125:
`err_count / total_words * 100` when `total_words > 0`, else `0`. -/
def error_rate (err_count total_words : Nat) : ℚ :=
  if 0 < total_words then (err_count : ℚ) / (total_words : ℚ) * 100 else 0

/-- Prints a number of hundredths as a decimal string with exactly two
decimal places. -/
def twoDecString (h : Nat) : String :=
  Nat.repr (h / 100) ++ "." ++
    (if h % 100 < 10 then "0" ++ Nat.repr (h % 100) else Nat.repr (h % 100)) ++ "%"

/-- Python's `f"{x:.2f}%"` on a nonnegative rational (app.py line 126):
round to hundredths and print with exactly two decimal places. -/
def format2f (q : ℚ) : String :=
  twoDecString (Int.toNat (Int.floor (q * 100 + 1 / 2)))

/-- Modelled from the spec: the external NLTK `word_tokenize` collaborator
restricted to the punctuation-free inputs of the end-to-end scenario, where
it splits the text at spaces. Auxiliary accumulator recursion. -/
def splitWordsAux (acc : List Char) : List Char → List String
  | [] => if acc.isEmpty then [] else [⟨acc.reverse⟩]
  | c :: cs =>
    if c = ' ' then
      if acc.isEmpty then splitWordsAux [] cs
      else ⟨acc.reverse⟩ :: splitWordsAux [] cs
    else splitWordsAux (c :: acc) cs

/-- Modelled from the spec: the tokenizer collaborator on space-separated
alphabetic input. -/
def wsTokenize (text : String) : List String :=
  splitWordsAux [] text.data

/-- Modelled from the spec: the Treebank detokenizer collaborator on
punctuation-free token lists, where it joins tokens with single spaces. -/
def spaceDetok : List String → String
  | [] => ""
  | [t] => t
  | t :: ts => t ++ " " ++ spaceDetok ts

/-- The candidate predicate in the spec's own words: the token consists
only of alphabetic characters, has length greater than 2, and is not
entirely uppercase. -/
def is_candidate_spec (tok : String) : Bool :=
  tok.data.all Char.isAlpha && decide (2 < tok.data.length) && !tok.data.all Char.isUpper

/-- The suggestion the corrector effectively uses for a surface form: the
dictionary's suggestion for its lower-cased form, with the fallback of
app.py lines 68-69. -/
def sugOf (spell : SpellDict) (s : String) : String :=
  effSuggestion spell s (pyLower s)

/-- Invariant of the corrections map: every recorded value is the
effective suggestion of its key. -/
def GoodMap (spell : SpellDict) (m : List (String × String)) : Prop :=
  ∀ kv ∈ m, kv.2 = sugOf spell kv.1

/-- A concrete dictionary recognizing `quick` and `fox`, not `teh`, and
suggesting `the` for `teh`. -/
def dictTehThe : SpellDict :=
  { unknown := fun w => !(w == "quick" || w == "fox")
    correction := fun w => if w == "teh" then some "the" else none }

/-- A concrete dictionary recognizing every word. -/
def dictAllKnown : SpellDict :=
  { unknown := fun _ => false
    correction := fun _ => none }

/-- A concrete dictionary recognizing nothing and never suggesting. -/
def dictNoSug : SpellDict :=
  { unknown := fun _ => true
    correction := fun _ => none }

/-- A concrete dictionary that flags `helo` and suggests `hello` for it. -/
def dictHelo : SpellDict :=
  { unknown := fun w => w == "helo"
    correction := fun w => if w == "helo" then some "hello" else none }

/-- A concrete POS tagger collaborator assigning the tag `NN` to every
word. -/
def tagNN : List String → List (String × String) :=
  fun ws => ws.map (fun w => (w, "NN"))

/-! ### Structural lemmas about the candidate pair list -/

theorem candAux_nil (i : Nat) : candAux i [] = [] := rfl

theorem candAux_cons (i : Nat) (t : String) (ts : List String) :
    candAux i (t :: ts) =
      if is_candidate_word t then (i, pyLower t) :: candAux (i + 1) ts
      else candAux (i + 1) ts := rfl

/-- Every pair produced with starting index `i` has index at least `i`. -/
theorem candAux_le {i : Nat} {ts : List String} {p : Nat × String}
    (h : p ∈ candAux i ts) : i ≤ p.1 := by
  induction ts generalizing i with
  | nil => simp [candAux_nil] at h
  | cons t ts ih =>
    rw [candAux_cons] at h
    cases hc : is_candidate_word t with
    | false =>
      rw [hc] at h
      simp only [Bool.false_eq_true, if_false] at h
      exact Nat.le_of_succ_le (ih h)
    | true =>
      rw [hc] at h
      simp only [if_true, List.mem_cons] at h
      rcases h with rfl | h
      · exact Nat.le_refl i
      · exact Nat.le_of_succ_le (ih h)

/-- The candidate pair indices are strictly increasing. -/
theorem candAux_pairwise (i : Nat) (ts : List String) :
    (candAux i ts).Pairwise (fun p q => p.1 < q.1) := by
  induction ts generalizing i with
  | nil => simp [candAux_nil]
  | cons t ts ih =>
    rw [candAux_cons]
    cases hc : is_candidate_word t with
    | false => simpa using ih (i + 1)
    | true =>
      simp only [if_true]
      refine List.pairwise_cons.2 ⟨?_, ih (i + 1)⟩
      intro q hq
      exact Nat.lt_of_succ_le (candAux_le hq)

/-- Membership in the candidate pair list, relative to a start offset. -/
theorem candAux_mem {i : Nat} {ts : List String} {j : Nat} {w : String}
    (h : (j, w) ∈ candAux i ts) :
    ∃ k t, j = i + k ∧ ts[k]? = some t ∧ is_candidate_word t = true ∧ w = pyLower t := by
  induction ts generalizing i with
  | nil => simp [candAux_nil] at h
  | cons t ts ih =>
    rw [candAux_cons] at h
    have tail : (j, w) ∈ candAux (i + 1) ts →
        ∃ k t2, j = i + k ∧ (t :: ts)[k]? = some t2 ∧
          is_candidate_word t2 = true ∧ w = pyLower t2 := by
      intro hm
      obtain ⟨k, t2, hk, hg, hc2, hw⟩ := ih hm
      exact ⟨k + 1, t2, by omega, by simpa using hg, hc2, hw⟩
    cases hc : is_candidate_word t with
    | false =>
      rw [hc] at h
      simp only [Bool.false_eq_true, if_false] at h
      exact tail h
    | true =>
      rw [hc] at h
      simp only [if_true, List.mem_cons, Prod.mk.injEq] at h
      rcases h with ⟨rfl, rfl⟩ | h
      · exact ⟨0, t, by omega, by simp, hc, rfl⟩
      · exact tail h

/-- Membership in `candidatePairs`. -/
theorem mem_candidatePairs {ts : List String} {j : Nat} {w : String}
    (h : (j, w) ∈ candidatePairs ts) :
    ∃ t, ts[j]? = some t ∧ is_candidate_word t = true ∧ w = pyLower t := by
  obtain ⟨k, t, hk, hg, hc, hw⟩ := candAux_mem (show (j, w) ∈ candAux 0 ts from h)
  exact ⟨t, by simpa [hk] using hg, hc, hw⟩

/-- Every candidate token position contributes a pair. -/
theorem candAux_of_mem {ts : List String} {k : Nat} {t : String}
    (hg : ts[k]? = some t) (hc : is_candidate_word t = true) (i : Nat) :
    (i + k, pyLower t) ∈ candAux i ts := by
  induction ts generalizing i k with
  | nil => simp at hg
  | cons x ts ih =>
    rw [candAux_cons]
    cases k with
    | zero =>
      simp only [List.getElem?_cons_zero, Option.some.injEq] at hg
      subst hg
      rw [hc]
      simp
    | succ m =>
      simp only [List.getElem?_cons_succ] at hg
      have hmem := ih hg (i + 1)
      have harith : i + (m + 1) = i + 1 + m := by omega
      cases hcx : is_candidate_word x with
      | false => simpa [harith] using hmem
      | true => simp only [if_true, List.mem_cons]; right; simpa [harith] using hmem

/-- Every candidate token position contributes a pair to `candidatePairs`. -/
theorem candidatePairs_of_mem {ts : List String} {k : Nat} {t : String}
    (hg : ts[k]? = some t) (hc : is_candidate_word t = true) :
    (k, pyLower t) ∈ candidatePairs ts := by
  simpa using candAux_of_mem hg hc 0

/-- The number of candidate pairs is the number of candidate tokens. -/
theorem candAux_length (i : Nat) (ts : List String) :
    (candAux i ts).length = ts.countP is_candidate_word := by
  induction ts generalizing i with
  | nil => simp [candAux_nil]
  | cons t ts ih =>
    rw [candAux_cons, List.countP_cons]
    cases hc : is_candidate_word t <;> simp [hc, ih (i + 1)]

/-! ### Lemmas about the correction fold -/

theorem corrStep_pos (spell : SpellDict) (tokens : List String) (st : CorrState)
    (p : Nat × String) (h : spell.unknown p.2 = true) :
    corrStep spell tokens st p =
      { corrected := st.corrected.set p.1
          (restoreCasing (tokens.getD p.1 "") (effSuggestion spell (tokens.getD p.1 "") p.2))
        corrections := setdefault st.corrections (tokens.getD p.1 "")
          (effSuggestion spell (tokens.getD p.1 "") p.2)
        error_count := st.error_count + 1
        misspelled := st.misspelled ++ [tokens.getD p.1 ""] } := by
  simp [corrStep, h]

theorem corrStep_neg (spell : SpellDict) (tokens : List String) (st : CorrState)
    (p : Nat × String) (h : spell.unknown p.2 = false) :
    corrStep spell tokens st p = st := by
  simp [corrStep, h]

/-- The fold never changes the number of tokens. -/
theorem foldl_corrected_length (spell : SpellDict) (tokens : List String)
    (ps : List (Nat × String)) (st : CorrState) :
    (ps.foldl (corrStep spell tokens) st).corrected.length = st.corrected.length := by
  induction ps generalizing st with
  | nil => rfl
  | cons p ps ih =>
    rw [List.foldl_cons, ih]
    cases h : spell.unknown p.2 with
    | false => rw [corrStep_neg spell tokens st p h]
    | true => rw [corrStep_pos spell tokens st p h]; simp

/-- Frame: a position no processed unknown pair points at keeps its token. -/
theorem foldl_corrected_frame (spell : SpellDict) (tokens : List String)
    (ps : List (Nat × String)) (st : CorrState) (j : Nat)
    (h : ∀ p ∈ ps, spell.unknown p.2 = true → p.1 ≠ j) :
    (ps.foldl (corrStep spell tokens) st).corrected[j]? = st.corrected[j]? := by
  induction ps generalizing st with
  | nil => rfl
  | cons p ps ih =>
    rw [List.foldl_cons]
    rw [ih _ fun q hq => h q (List.mem_cons_of_mem p hq)]
    cases hu : spell.unknown p.2 with
    | false => rw [corrStep_neg spell tokens st p hu]
    | true =>
      rw [corrStep_pos spell tokens st p hu]
      exact List.getElem?_set_ne (h p (List.mem_cons_self p ps) hu)

/-- The token at a processed unknown pair's index is the case-restored
effective suggestion. -/
theorem foldl_corrected_set (spell : SpellDict) (tokens : List String)
    (ps : List (Nat × String)) (st : CorrState) (j : Nat) (w : String)
    (hpw : ps.Pairwise (fun p q => p.1 < q.1)) (hmem : (j, w) ∈ ps)
    (hu : spell.unknown w = true) (hlt : j < st.corrected.length) :
    (ps.foldl (corrStep spell tokens) st).corrected[j]? =
      some (restoreCasing (tokens.getD j "") (effSuggestion spell (tokens.getD j "") w)) := by
  induction ps generalizing st with
  | nil => simp at hmem
  | cons p ps ih =>
    obtain ⟨hhead, htail⟩ := List.pairwise_cons.1 hpw
    rw [List.foldl_cons]
    rcases List.mem_cons.1 hmem with rfl | hmem2
    · rw [foldl_corrected_frame spell tokens ps _ j
        (fun q hq _ => Nat.ne_of_gt (hhead q hq))]
      rw [corrStep_pos spell tokens st _ hu]
      exact List.getElem?_set_eq_of_lt _ hlt
    · have hlen : j < (corrStep spell tokens st p).corrected.length := by
        cases hup : spell.unknown p.2 with
        | false => rw [corrStep_neg spell tokens st p hup]; exact hlt
        | true => rw [corrStep_pos spell tokens st p hup]; simpa using hlt
      exact ih _ htail hmem2 hlen

/-- When no processed pair is unknown, the fold is the identity. -/
theorem foldl_id (spell : SpellDict) (tokens : List String)
    (ps : List (Nat × String)) (st : CorrState)
    (h : ∀ p ∈ ps, spell.unknown p.2 = false) :
    ps.foldl (corrStep spell tokens) st = st := by
  induction ps generalizing st with
  | nil => rfl
  | cons p ps ih =>
    rw [List.foldl_cons, corrStep_neg spell tokens st p (h p (List.mem_cons_self p ps))]
    exact ih _ fun q hq => h q (List.mem_cons_of_mem p hq)

/-- The misspelled list accumulated by the fold. -/
theorem foldl_misspelled (spell : SpellDict) (tokens : List String)
    (ps : List (Nat × String)) (st : CorrState) :
    (ps.foldl (corrStep spell tokens) st).misspelled =
      st.misspelled ++
        (ps.filter (fun p => spell.unknown p.2)).map (fun p => tokens.getD p.1 "") := by
  induction ps generalizing st with
  | nil => simp
  | cons p ps ih =>
    rw [List.foldl_cons, ih, List.filter_cons]
    cases hu : spell.unknown p.2 with
    | false => rw [corrStep_neg spell tokens st p hu]; simp
    | true => rw [corrStep_pos spell tokens st p hu]; simp

/-- The error count accumulated by the fold. -/
theorem foldl_error_count (spell : SpellDict) (tokens : List String)
    (ps : List (Nat × String)) (st : CorrState) :
    (ps.foldl (corrStep spell tokens) st).error_count =
      st.error_count + ps.countP (fun p => spell.unknown p.2) := by
  induction ps generalizing st with
  | nil => simp
  | cons p ps ih =>
    rw [List.foldl_cons, ih, List.countP_cons]
    cases hu : spell.unknown p.2 with
    | false => rw [corrStep_neg spell tokens st p hu]; simp [hu]
    | true => rw [corrStep_pos spell tokens st p hu]; simp [hu]; omega

/-! ### Lemmas about the corrections map -/

theorem mem_setdefault_of_mem {m : List (String × String)} {kv : String × String}
    (k v : String) (h : kv ∈ m) : kv ∈ setdefault m k v := by
  unfold setdefault
  split
  · exact h
  · exact List.mem_append_left _ h

theorem setdefault_good {spell : SpellDict} {m : List (String × String)} {k : String}
    (hg : GoodMap spell m) : GoodMap spell (setdefault m k (sugOf spell k)) := by
  unfold setdefault
  split
  · exact hg
  · intro kv hkv
    rcases List.mem_append.1 hkv with h | h
    · exact hg kv h
    · simp only [List.mem_singleton] at h
      subst h
      rfl

theorem setdefault_mem_self {spell : SpellDict} {m : List (String × String)} {k : String}
    (hg : GoodMap spell m) : (k, sugOf spell k) ∈ setdefault m k (sugOf spell k) := by
  unfold setdefault
  split
  next h =>
    rcases List.any_eq_true.1 h with ⟨kv, hkv, hk⟩
    have hv := hg kv hkv
    have hk2 : kv.1 = k := of_decide_eq_true hk
    have : kv = (k, sugOf spell k) := by
      cases kv
      simp_all
    rw [← this]
    exact hkv
  next h =>
    exact List.mem_append_right _ (List.mem_singleton.2 rfl)

theorem setdefault_keys_nodup {m : List (String × String)} {k v : String}
    (h : (m.map Prod.fst).Nodup) : ((setdefault m k v).map Prod.fst).Nodup := by
  unfold setdefault
  split
  next hany => exact h
  next hany =>
    rw [List.map_append, List.nodup_append]
    refine ⟨h, List.nodup_singleton k, ?_⟩
    intro x hx hxk
    simp only [List.map_cons, List.map_nil, List.mem_singleton] at hxk
    subst hxk
    obtain ⟨kv, hkv, hfst⟩ := List.mem_map.1 hx
    exact hany (List.any_eq_true.2 ⟨kv, hkv, by simp [hfst]⟩)

/-- Keys only ever get added by the fold. -/
theorem foldl_corrections_mono (spell : SpellDict) (tokens : List String)
    (ps : List (Nat × String)) (st : CorrState) (kv : String × String)
    (h : kv ∈ st.corrections) :
    kv ∈ (ps.foldl (corrStep spell tokens) st).corrections := by
  induction ps generalizing st with
  | nil => exact h
  | cons p ps ih =>
    rw [List.foldl_cons]
    apply ih
    cases hu : spell.unknown p.2 with
    | false => rw [corrStep_neg spell tokens st p hu]; exact h
    | true => rw [corrStep_pos spell tokens st p hu]; exact mem_setdefault_of_mem _ _ h

/-- The fold preserves the corrections-map value invariant, provided the
processed pairs carry the lower-cased form of their surface. -/
theorem foldl_corrections_good (spell : SpellDict) (tokens : List String)
    (ps : List (Nat × String)) (st : CorrState)
    (hwf : ∀ p ∈ ps, p.2 = pyLower (tokens.getD p.1 ""))
    (hg : GoodMap spell st.corrections) :
    GoodMap spell (ps.foldl (corrStep spell tokens) st).corrections := by
  induction ps generalizing st with
  | nil => exact hg
  | cons p ps ih =>
    rw [List.foldl_cons]
    refine ih _ (fun q hq => hwf q (List.mem_cons_of_mem p hq)) ?_
    cases hu : spell.unknown p.2 with
    | false => rw [corrStep_neg spell tokens st p hu]; exact hg
    | true =>
      rw [corrStep_pos spell tokens st p hu]
      have : effSuggestion spell (tokens.getD p.1 "") p.2 =
          sugOf spell (tokens.getD p.1 "") := by
        rw [hwf p (List.mem_cons_self p ps)]; rfl
      rw [this]
      exact setdefault_good hg

/-- After processing an unknown pair, its surface's mapping is present. -/
theorem foldl_corrections_key (spell : SpellDict) (tokens : List String)
    (ps : List (Nat × String)) (st : CorrState) (j : Nat) (w : String)
    (hwf : ∀ p ∈ ps, p.2 = pyLower (tokens.getD p.1 ""))
    (hg : GoodMap spell st.corrections)
    (hmem : (j, w) ∈ ps) (hu : spell.unknown w = true) :
    (tokens.getD j "", sugOf spell (tokens.getD j "")) ∈
      (ps.foldl (corrStep spell tokens) st).corrections := by
  induction ps generalizing st with
  | nil => simp at hmem
  | cons p ps ih =>
    rw [List.foldl_cons]
    rcases List.mem_cons.1 hmem with rfl | hmem2
    · apply foldl_corrections_mono
      rw [corrStep_pos spell tokens st _ hu]
      have hw : w = pyLower (tokens.getD j "") := hwf (j, w) (List.mem_cons_self _ ps)
      have : effSuggestion spell (tokens.getD j "") w =
          sugOf spell (tokens.getD j "") := by
        rw [hw]; rfl
      rw [this]
      exact setdefault_mem_self hg
    · refine ih _ (fun q hq => hwf q (List.mem_cons_of_mem p hq)) ?_ hmem2
      cases hu2 : spell.unknown p.2 with
      | false => rw [corrStep_neg spell tokens st p hu2]; exact hg
      | true =>
        rw [corrStep_pos spell tokens st p hu2]
        have : effSuggestion spell (tokens.getD p.1 "") p.2 =
            sugOf spell (tokens.getD p.1 "") := by
          rw [hwf p (List.mem_cons_self p ps)]; rfl
        rw [this]
        exact setdefault_good hg

/-- The fold keeps the corrections keys duplicate-free. -/
theorem foldl_corrections_nodup (spell : SpellDict) (tokens : List String)
    (ps : List (Nat × String)) (st : CorrState)
    (h : (st.corrections.map Prod.fst).Nodup) :
    ((ps.foldl (corrStep spell tokens) st).corrections.map Prod.fst).Nodup := by
  induction ps generalizing st with
  | nil => exact h
  | cons p ps ih =>
    rw [List.foldl_cons]
    apply ih
    cases hu : spell.unknown p.2 with
    | false => rw [corrStep_neg spell tokens st p hu]; exact h
    | true => rw [corrStep_pos spell tokens st p hu]; exact setdefault_keys_nodup h

/-- Every key of the final corrections map is the surface form of some
processed unknown pair (or was present initially). -/
theorem foldl_corrections_origin (spell : SpellDict) (tokens : List String)
    (ps : List (Nat × String)) (st : CorrState) (kv : String × String)
    (h : kv ∈ (ps.foldl (corrStep spell tokens) st).corrections) :
    kv ∈ st.corrections ∨
      ∃ p ∈ ps, spell.unknown p.2 = true ∧ kv.1 = tokens.getD p.1 "" := by
  induction ps generalizing st with
  | nil => exact Or.inl h
  | cons p ps ih
  =>
    rw [List.foldl_cons] at h
    rcases ih _ h with h2 | ⟨q, hq, hqu, hqk⟩
    · cases hu : spell.unknown p.2 with
      | false =>
        rw [corrStep_neg spell tokens st p hu] at h2
        exact Or.inl h2
      | true =>
        rw [corrStep_pos spell tokens st p hu] at h2
        unfold setdefault at h2
        split at h2
        · exact Or.inl h2
        · rcases List.mem_append.1 h2 with h3 | h3
          · exact Or.inl h3
          · simp only [List.mem_singleton] at h3
            subst h3
            exact Or.inr ⟨p, List.mem_cons_self p ps, hu, rfl⟩
    · exact Or.inr ⟨q, List.mem_cons_of_mem p hq, hqu, hqk⟩

/-! ### The misspelled list is the sublist of unknown candidate tokens -/

theorem candAux_misspelled (spell : SpellDict) (tokens : List String)
    (rest : List String) (i : Nat)
    (hoff : ∀ k, tokens.getD (i + k) "" = rest.getD k "") :
    ((candAux i rest).filter (fun p => spell.unknown p.2)).map
        (fun p => tokens.getD p.1 "") =
      rest.filter (fun t => is_candidate_word t && spell.unknown (pyLower t)) := by
  induction rest generalizing i with
  | nil => simp [candAux_nil]
  | cons t ts ih =>
    have h0 : tokens.getD i "" = t := by
      have := hoff 0
      simpa using this
    have hoff2 : ∀ k, tokens.getD (i + 1 + k) "" = ts.getD k "" := by
      intro k
      have := hoff (k + 1)
      rw [show i + (k + 1) = i + 1 + k by omega] at this
      simpa [List.getD_cons_succ] using this
    rw [candAux_cons]
    cases hc : is_candidate_word t with
    | false =>
      simp only [Bool.false_eq_true, if_false]
      rw [ih (i + 1) hoff2, List.filter_cons]
      simp [hc]
    | true =>
      simp only [if_true]
      rw [List.filter_cons, List.filter_cons]
      cases hu : spell.unknown (pyLower t) with
      | false => simp only [hu, hc]; simpa using ih (i + 1) hoff2
      | true =>
        simp only [hu, hc, Bool.and_self, if_true, List.map_cons]
        rw [h0, ih (i + 1) hoff2]

/-! ### Casing lemmas -/

theorem toUpper_of_isUpper {c : Char} (h : c.isUpper = true) : c.toUpper = c := by
  rw [Char.isUpper, Bool.and_eq_true] at h
  have hle : c.val ≤ 90 := of_decide_eq_true h.2
  have hn : c.toNat ≤ 90 := hle
  unfold Char.toUpper
  rw [if_neg]
  intro hcon
  omega

theorem toLower_of_isLower {c : Char} (h : c.isLower = true) : c.toLower = c := by
  rw [Char.isLower, Bool.and_eq_true] at h
  have hge : (97 : UInt32) ≤ c.val := of_decide_eq_true h.1
  have hn : 97 ≤ c.toNat := hge
  unfold Char.toLower
  rw [if_neg]
  intro hcon
  omega

theorem not_isLower_of_isUpper {c : Char} (h : c.isUpper = true) : c.isLower = false := by
  rw [Char.isUpper, Bool.and_eq_true] at h
  have hle : c.val ≤ 90 := of_decide_eq_true h.2
  have hn : c.toNat ≤ 90 := hle
  cases hl : c.isLower with
  | false => rfl
  | true =>
    rw [Char.isLower, Bool.and_eq_true] at hl
    have hge : (97 : UInt32) ≤ c.val := of_decide_eq_true hl.1
    have hn2 : 97 ≤ c.toNat := hge
    omega

/-- A title-case tail of alphabetic characters is entirely lowercase. -/
theorem isTitleAux_all_lower {cs : List Char}
    (ha : cs.all Char.isAlpha = true) (ht : isTitleAux cs true true = true) :
    cs.all Char.isLower = true := by
  induction cs with
  | nil => rfl
  | cons c rest ih =>
    rw [List.all_cons, Bool.and_eq_true] at ha
    unfold isTitleAux at ht
    cases hu : c.isUpper with
    | true => rw [hu] at ht; simp at ht
    | false =>
      rw [hu] at ht
      simp only [Bool.false_eq_true, if_false] at ht
      cases hl : c.isLower with
      | false =>
        have : c.isAlpha = true := ha.1
        rw [Char.isAlpha, hu, hl] at this
        simp at this
      | true =>
        rw [hl] at ht
        simp only [if_true] at ht
        rw [List.all_cons, hl]
        simpa using ih ha.2 ht

/-- Capitalizing an alphabetic title-case string leaves it unchanged. -/
theorem pyCapitalize_of_title {t : String}
    (ha : pyIsAlpha t = true) (ht : pyIsTitle t = true) : pyCapitalize t = t := by
  obtain ⟨cs⟩ := t
  cases cs with
  | nil => simp [pyIsAlpha] at ha
  | cons c rest =>
    have hall : (c :: rest).all Char.isAlpha = true := by
      rw [pyIsAlpha, Bool.and_eq_true] at ha
      exact ha.2
    rw [List.all_cons, Bool.and_eq_true] at hall
    rw [pyIsTitle] at ht
    unfold isTitleAux at ht
    cases hu : c.isUpper with
    | false =>
      rw [hu] at ht
      simp only [Bool.false_eq_true, if_false] at ht
      cases hl : c.isLower with
      | false =>
        have : c.isAlpha = true := hall.1
        rw [Char.isAlpha, hu, hl] at this
        simp at this
      | true => rw [hl] at ht; simp at ht
    | true =>
      rw [hu] at ht
      simp only [if_true] at ht
      have hrest := isTitleAux_all_lower hall.2 ht
      show String.mk (c.toUpper :: rest.map Char.toLower) = String.mk (c :: rest)
      rw [toUpper_of_isUpper hu]
      have : rest.map Char.toLower = rest := by
        have : rest.map Char.toLower = rest.map id := by
          apply List.map_congr_left
          intro a hmem
          exact toLower_of_isLower (List.all_eq_true.1 hrest a hmem)
        rw [this, List.map_id]
      rw [this]

theorem candidate_alpha {t : String} (h : is_candidate_word t = true) :
    pyIsAlpha t = true := by
  rw [is_candidate_word, Bool.and_eq_true, Bool.and_eq_true] at h
  exact h.1.1

theorem candidate_not_upper {t : String} (h : is_candidate_word t = true) :
    pyIsUpper t = false := by
  rw [is_candidate_word, Bool.and_eq_true] at h
  simpa using h.2

/-- For candidate surfaces the casing restoration is a two-way decision:
the fully-uppercase branch is unreachable. -/
theorem restoreCasing_candidate {t : String} (h : is_candidate_word t = true)
    (sug : String) :
    restoreCasing t sug = if pyIsTitle t then pyCapitalize sug else sug := by
  rw [restoreCasing, candidate_not_upper h]
  simp

/-- A candidate surface used as its own suggestion is restored unchanged. -/
theorem restoreCasing_self {t : String} (h : is_candidate_word t = true) :
    restoreCasing t t = t := by
  rw [restoreCasing_candidate h]
  cases ht : pyIsTitle t with
  | false => simp
  | true => simpa using pyCapitalize_of_title (candidate_alpha h) ht

/-- A falsy dictionary suggestion falls back to the surface form. -/
theorem effSuggestion_falsy {spell : SpellDict} {s lw : String}
    (h : spell.correction lw = none ∨ spell.correction lw = some "") :
    effSuggestion spell s lw = s := by
  rcases h with h | h
  · rw [effSuggestion, h]
  · rw [effSuggestion, h]
    simp

/-! ### Analyze-level corollaries -/

theorem getD_of_getElem {ts : List String} {j : Nat} {t : String}
    (h : ts[j]? = some t) : ts.getD j "" = t := by
  rw [List.getD_eq_getElem?_getD, h]
  rfl

/-- Each candidate pair carries the lower-cased form of its surface. -/
theorem candidatePairs_wf (tokens : List String) :
    ∀ p ∈ candidatePairs tokens, p.2 = pyLower (tokens.getD p.1 "") := by
  intro p hp
  obtain ⟨t, hg, _, hw⟩ :=
    mem_candidatePairs (show (p.1, p.2) ∈ candidatePairs tokens by simpa using hp)
  rw [hw, getD_of_getElem hg]

/-- The misspelled list is the sublist of tokens that are unknown
candidates, in token order. -/
theorem analyze_misspelled (spell : SpellDict) (tokens : List String) :
    (analyze_and_correct spell tokens).misspelled =
      tokens.filter (fun t => is_candidate_word t && spell.unknown (pyLower t)) := by
  unfold analyze_and_correct candidatePairs
  rw [foldl_misspelled]
  simp only [List.nil_append]
  exact candAux_misspelled spell tokens tokens 0 (fun k => by simp)

/-- The error count equals the length of the misspelled list. -/
theorem analyze_error_count (spell : SpellDict) (tokens : List String) :
    (analyze_and_correct spell tokens).error_count =
      (analyze_and_correct spell tokens).misspelled.length := by
  unfold analyze_and_correct
  rw [foldl_error_count, foldl_misspelled]
  simp [List.countP_eq_length_filter]

/-- At most every candidate token can be misspelled. -/
theorem analyze_error_le (spell : SpellDict) (tokens : List String) :
    (analyze_and_correct spell tokens).error_count ≤ tokens.countP is_candidate_word := by
  unfold analyze_and_correct
  rw [foldl_error_count]
  simp only [Nat.zero_add]
  calc (candidatePairs tokens).countP (fun p => spell.unknown p.2)
      ≤ (candidatePairs tokens).length := List.countP_le_length _
    _ = tokens.countP is_candidate_word := candAux_length 0 tokens

/-- An error rate computed from an error count bounded by the word count
never exceeds 100 percent. -/
theorem error_rate_le_100 {e t : Nat} (h : e ≤ t) : error_rate e t ≤ 100 := by
  rw [error_rate]
  split
  next ht =>
    have htq : (0 : ℚ) < t := by exact_mod_cast ht
    have heq : (e : ℚ) ≤ (t : ℚ) := by exact_mod_cast h
    have h1 : (e : ℚ) / t ≤ 1 := (div_le_one htq).2 heq
    calc (e : ℚ) / t * 100 ≤ 1 * 100 := by
          exact mul_le_mul_of_nonneg_right h1 (by norm_num)
      _ = 100 := by norm_num
  next ht => norm_num

/-! ### The candidate predicate in the spec's words matches the code -/

theorem all_upper_of_all_alpha {cs : List Char} (h : cs.all Char.isAlpha = true) :
    (cs.all fun c => !c.isAlpha || c.isUpper) = cs.all Char.isUpper := by
  induction cs with
  | nil => rfl
  | cons c rest ih =>
    rw [List.all_cons, Bool.and_eq_true] at h
    rw [List.all_cons, List.all_cons, ih h.2, h.1]
    simp

theorem any_alpha_of_all_alpha {c : Char} {rest : List Char}
    (h : (c :: rest).all Char.isAlpha = true) :
    (c :: rest).any Char.isAlpha = true := by
  rw [List.all_cons, Bool.and_eq_true] at h
  rw [List.any_cons, h.1]
  rfl

theorem candidate_eq_spec_list (cs : List Char) :
    ((!cs.isEmpty && cs.all Char.isAlpha) && decide (2 < cs.length) &&
        !(cs.any Char.isAlpha && cs.all (fun c => !c.isAlpha || c.isUpper))) =
      (cs.all Char.isAlpha && decide (2 < cs.length) && !cs.all Char.isUpper) := by
  cases cs with
  | nil => rfl
  | cons c rest =>
    cases hall : (c :: rest).all Char.isAlpha with
    | false => simp [hall]
    | true =>
      rw [all_upper_of_all_alpha hall, any_alpha_of_all_alpha hall]
      simp

/-- The code's candidate predicate coincides with the spec's wording. -/
theorem is_candidate_eq_spec (t : String) :
    is_candidate_word t = is_candidate_spec t := by
  rw [is_candidate_word, is_candidate_spec, pyIsAlpha, pyIsUpper]
  exact candidate_eq_spec_list t.data

/-- `countP` of the key predicate is one on a duplicate-free key list. -/
theorem countP_eq_one_of_nodup_mem {l : List String} {s : String}
    (hnd : l.Nodup) (hmem : s ∈ l) :
    l.countP (fun k => k = s) = 1 := by
  induction l with
  | nil => simp at hmem
  | cons a l ih =>
    obtain ⟨hnotin, hnd2⟩ := List.nodup_cons.1 hnd
    rw [List.countP_cons]
    rcases List.mem_cons.1 hmem with rfl | hmem2
    · have hz : l.countP (fun k => decide (k = s)) = 0 := by
        rw [List.countP_eq_zero]
        intro k hk
        simp only [decide_eq_true_eq]
        rintro rfl
        exact hnotin hk
      simp [hz]
    · have hne : a ≠ s := by
        rintro rfl
        exact hnotin hmem2
      rw [ih hnd2 hmem2]
      simp [hne]

/-! ### Claim theorems -/

/-- C2: for every text, `count_real_words` is deterministic and equals the
number of tokens of the tokenization that satisfy the candidate predicate
(alphabetic, length greater than 2, not entirely uppercase). -/
theorem C2_count_real_words_spec :
    ∀ (tokenizeF : String → List String) (T : String),
      count_real_words tokenizeF T = count_real_words tokenizeF T ∧
      count_real_words tokenizeF T = ((tokenizeF T).filter is_candidate_spec).length := by
  intro tokenizeF T
  refine ⟨rfl, ?_⟩
  rw [count_real_words, List.countP_eq_length_filter]
  congr 1
  exact List.filter_congr fun x _ => is_candidate_eq_spec x

/-- C6: the error rate is `error_count / total * 100` for a positive
total, `0` for a zero total (no division fault), and ten candidate words
with two errors format as the percentage string `20.00%`. -/
theorem C6_error_rate_def :
    (∀ e t : Nat, 0 < t → error_rate e t = (e : ℚ) / (t : ℚ) * 100) ∧
    (∀ e : Nat, error_rate e 0 = 0) ∧
    format2f (error_rate 2 10) = "20.00%" := by
  refine ⟨?_, ?_, ?_⟩
  · intro e t ht
    rw [error_rate, if_pos ht]
  · intro e
    rfl
  · have h : Int.floor (error_rate 2 10 * 100 + 1 / 2) = (2000 : Int) := by
      norm_num [error_rate]
    rw [format2f, h]
    decide

/-- Witness for C6 at the concrete input `e = 2`, `t = 10`. -/
theorem C6_error_rate_def_witness :
    error_rate 2 10 = ((2 : Nat) : ℚ) / ((10 : Nat) : ℚ) * 100 :=
  C6_error_rate_def.1 2 10 (by decide)

/-- C7: merging two documents' POS profiles is commutative, and for a
tagger that distributes over concatenation it equals the profile of the
concatenated misspelled-word lists. -/
theorem C7_pos_profile_merge :
    ∀ (tagF : List String → List (String × String)),
      (∀ a b : List String, tagF (a ++ b) = tagF a ++ tagF b) →
      ∀ ws1 ws2 : List String,
        mergeProfile (pos_profile tagF ws1) (pos_profile tagF ws2) =
          mergeProfile (pos_profile tagF ws2) (pos_profile tagF ws1) ∧
        mergeProfile (pos_profile tagF ws1) (pos_profile tagF ws2) =
          pos_profile tagF (ws1 ++ ws2) := by
  intro tagF hhom ws1 ws2
  constructor
  · funext tag
    simp [mergeProfile, Nat.add_comm]
  · funext tag
    simp [mergeProfile, pos_profile, hhom, List.map_append, List.count_append]

/-- Witness for C7 at a concrete word-by-word tagger and word lists. -/
theorem C7_pos_profile_merge_witness :
    mergeProfile (pos_profile tagNN ["helo"]) (pos_profile tagNN ["wrld"]) =
      pos_profile tagNN (["helo"] ++ ["wrld"]) :=
  (C7_pos_profile_merge tagNN (fun a b => by simp [tagNN]) ["helo"] ["wrld"]).2

theorem mem_of_getElem_opt {ts : List String} {j : Nat} {t : String}
    (h : ts[j]? = some t) : t ∈ ts := by
  obtain ⟨hlt, he⟩ := List.getElem?_eq_some.1 h
  exact he ▸ List.getElem_mem hlt

/-- The corrected token at a misspelled candidate position, at the level
of `analyze_and_correct`. -/
theorem analyze_corrected_set (spell : SpellDict) (tokens : List String)
    {idx : Nat} {w : String}
    (hmem : (idx, w) ∈ candidatePairs tokens) (hu : spell.unknown w = true)
    (hlt : idx < tokens.length) :
    (analyze_and_correct spell tokens).corrected[idx]? =
      some (restoreCasing (tokens.getD idx "")
        (effSuggestion spell (tokens.getD idx "") w)) :=
  foldl_corrected_set spell tokens (candidatePairs tokens) _ idx w
    (candAux_pairwise 0 tokens) hmem hu hlt

/-- The corrections entry of a misspelled candidate position, at the level
of `analyze_and_correct`. -/
theorem analyze_corrections_key (spell : SpellDict) (tokens : List String)
    {idx : Nat} {w : String}
    (hmem : (idx, w) ∈ candidatePairs tokens) (hu : spell.unknown w = true) :
    (tokens.getD idx "", sugOf spell (tokens.getD idx "")) ∈
      (analyze_and_correct spell tokens).corrections :=
  foldl_corrections_key spell tokens (candidatePairs tokens) _ idx w
    (candidatePairs_wf tokens) (fun kv h => absurd h (List.not_mem_nil kv)) hmem hu

/-- C3: a token whose lower-cased form the dictionary recognizes is left
unchanged, gets no corrections entry, is not appended to the misspelled
list, and is not counted in the error count. -/
theorem C3_recognized_unchanged :
    ∀ (spell : SpellDict) (tokens : List String) (idx : Nat) (tok : String),
      tokens[idx]? = some tok →
      spell.unknown (pyLower tok) = false →
      (analyze_and_correct spell tokens).corrected[idx]? = some tok ∧
      tok ∉ (analyze_and_correct spell tokens).corrections.map Prod.fst ∧
      tok ∉ (analyze_and_correct spell tokens).misspelled ∧
      (analyze_and_correct spell tokens).error_count =
        (analyze_and_correct spell tokens).misspelled.length := by
  intro spell tokens idx tok hg hu
  refine ⟨?_, ?_, ?_, analyze_error_count spell tokens⟩
  · show (analyze_and_correct spell tokens).corrected[idx]? = some tok
    unfold analyze_and_correct
    rw [foldl_corrected_frame spell tokens _ _ idx ?_]
    · exact hg
    · intro p hp hup hpj
      obtain ⟨t, hgt, hct, hwt⟩ :=
        mem_candidatePairs (show (p.1, p.2) ∈ candidatePairs tokens by simpa using hp)
      rw [hpj, hg] at hgt
      obtain rfl := Option.some.inj hgt
      rw [hwt] at hup
      rw [hup] at hu
      exact Bool.true_eq_false ▸ hu
  · intro hmem
    obtain ⟨kv, hkv, hfst⟩ := List.mem_map.1 hmem
    have horig := foldl_corrections_origin spell tokens (candidatePairs tokens) _ kv hkv
    rcases horig with h0 | ⟨p, hp, hpu, hpk⟩
    · simp at h0
    · obtain ⟨t, hgt, hct, hwt⟩ :=
        mem_candidatePairs (show (p.1, p.2) ∈ candidatePairs tokens by simpa using hp)
      rw [getD_of_getElem hgt] at hpk
      rw [hfst] at hpk
      subst hpk
      rw [hwt] at hpu
      rw [hpu] at hu
      exact Bool.true_eq_false ▸ hu
  · rw [analyze_misspelled]
    intro hmem
    have := (List.mem_filter.1 hmem).2
    rw [Bool.and_eq_true] at this
    rw [this.2] at hu
    exact Bool.true_eq_false ▸ hu

/-- Witness for C3 at a dictionary recognizing everything. -/
theorem C3_recognized_unchanged_witness :
    (analyze_and_correct dictAllKnown ["hello"]).corrected[0]? = some "hello" ∧
    "hello" ∉ (analyze_and_correct dictAllKnown ["hello"]).corrections.map Prod.fst ∧
    "hello" ∉ (analyze_and_correct dictAllKnown ["hello"]).misspelled ∧
    (analyze_and_correct dictAllKnown ["hello"]).error_count =
      (analyze_and_correct dictAllKnown ["hello"]).misspelled.length :=
  C3_recognized_unchanged dictAllKnown ["hello"] 0 "hello" (by decide) (by decide)

/-- C4: a misspelled candidate with no dictionary suggestion falls back to
its own surface form: the token is unchanged, `surface → surface` is
recorded, the occurrence is appended to the misspelled list, and the error
count still counts it. -/
theorem C4_no_suggestion_fallback :
    ∀ (spell : SpellDict) (tokens : List String) (idx : Nat) (tok : String),
      tokens[idx]? = some tok →
      is_candidate_word tok = true →
      spell.unknown (pyLower tok) = true →
      (spell.correction (pyLower tok) = none ∨ spell.correction (pyLower tok) = some "") →
      (analyze_and_correct spell tokens).corrected[idx]? = some tok ∧
      (tok, tok) ∈ (analyze_and_correct spell tokens).corrections ∧
      tok ∈ (analyze_and_correct spell tokens).misspelled ∧
      (analyze_and_correct spell tokens).error_count =
        (analyze_and_correct spell tokens).misspelled.length ∧
      0 < (analyze_and_correct spell tokens).error_count := by
  intro spell tokens idx tok hg hc hu hfal
  have hsug : effSuggestion spell tok (pyLower tok) = tok := effSuggestion_falsy hfal
  have hmem : (idx, pyLower tok) ∈ candidatePairs tokens := candidatePairs_of_mem hg hc
  have hgetd : tokens.getD idx "" = tok := getD_of_getElem hg
  have hmis : tok ∈ (analyze_and_correct spell tokens).misspelled := by
    rw [analyze_misspelled]
    exact List.mem_filter.2 ⟨mem_of_getElem_opt hg, by simp [hc, hu]⟩
  refine ⟨?_, ?_, hmis, analyze_error_count spell tokens, ?_⟩
  · obtain ⟨hlt, _⟩ := List.getElem?_eq_some.1 hg
    rw [analyze_corrected_set spell tokens hmem hu hlt]
    rw [hgetd, hsug, restoreCasing_self hc]
  · have hkey := analyze_corrections_key spell tokens hmem hu
    rw [hgetd] at hkey
    have : sugOf spell tok = tok := hsug
    rwa [this] at hkey
  · rw [analyze_error_count]
    exact List.length_pos.2 (List.ne_nil_of_mem hmis)

/-- Witness for C4 at a dictionary flagging everything with no
suggestions. -/
theorem C4_no_suggestion_fallback_witness :
    (analyze_and_correct dictNoSug ["abc"]).corrected[0]? = some "abc" ∧
    ("abc", "abc") ∈ (analyze_and_correct dictNoSug ["abc"]).corrections ∧
    "abc" ∈ (analyze_and_correct dictNoSug ["abc"]).misspelled ∧
    (analyze_and_correct dictNoSug ["abc"]).error_count =
      (analyze_and_correct dictNoSug ["abc"]).misspelled.length ∧
    0 < (analyze_and_correct dictNoSug ["abc"]).error_count :=
  C4_no_suggestion_fallback dictNoSug ["abc"] 0 "abc" (by decide) (by decide) (by decide)
    (Or.inl (by decide))

/-- Counterexample to C1: a fully-uppercase surface form is never a
candidate word, so it is never treated as misspelled. With a dictionary
not recognizing `teh` and suggesting `the`, the token `TEH` is emitted
unchanged, not as `THE` as the claim's casing law asserts. -/
theorem C1_casing_counterexample :
    dictTehThe.unknown (pyLower "TEH") = true ∧
    dictTehThe.correction (pyLower "TEH") = some "the" ∧
    (analyze_and_correct dictTehThe ["TEH"]).corrected = ["TEH"] ∧
    (analyze_and_correct dictTehThe ["TEH"]).corrected ≠ ["THE"] ∧
    (analyze_and_correct dictTehThe ["TEH"]).error_count = 0 := by
  refine ⟨by decide, by decide, by decide, ?_, by decide⟩
  intro h
  exact absurd ((show (analyze_and_correct dictTehThe ["TEH"]).corrected = ["TEH"]
    by decide) ▸ h) (by decide)

/-- C1 amended: a misspelled token is always a candidate and therefore
never fully uppercase; if its surface is title-case the emitted token is
the capitalized suggestion, otherwise the suggestion verbatim. The
uppercase branch of the restoration is unreachable: `Teh` yields `The`,
`teh` yields `the`, and `TEH` is not corrected at all. -/
theorem C1_casing_amended :
    (∀ (spell : SpellDict) (tokens : List String) (idx : Nat) (t : String),
        tokens[idx]? = some t →
        is_candidate_word t = true →
        spell.unknown (pyLower t) = true →
        (analyze_and_correct spell tokens).corrected[idx]? =
          some (if pyIsTitle t then pyCapitalize (sugOf spell t) else sugOf spell t)) ∧
    (analyze_and_correct dictTehThe ["Teh"]).corrected = ["The"] ∧
    (analyze_and_correct dictTehThe ["teh"]).corrected = ["the"] ∧
    (analyze_and_correct dictTehThe ["TEH"]).corrected = ["TEH"] := by
  refine ⟨?_, by decide, by decide, by decide⟩
  intro spell tokens idx t hg hc hu
  obtain ⟨hlt, _⟩ := List.getElem?_eq_some.1 hg
  rw [analyze_corrected_set spell tokens (candidatePairs_of_mem hg hc) hu hlt]
  rw [getD_of_getElem hg, restoreCasing_candidate hc]
  rfl

/-- Witness for the general part of the amended C1. -/
theorem C1_casing_amended_witness :
    (analyze_and_correct dictTehThe ["Teh"]).corrected[0]? =
      some (if pyIsTitle "Teh" then pyCapitalize (sugOf dictTehThe "Teh")
        else sugOf dictTehThe "Teh") :=
  C1_casing_amended.1 dictTehThe ["Teh"] 0 "Teh" (by decide) (by decide) (by decide)

/-- C5: all occurrences of a repeated misspelled surface form are
corrected and counted, while the corrections map holds exactly one entry
for that surface, always carrying the (occurrence-independent) effective
suggestion. -/
theorem C5_duplicate_surface :
    ∀ (spell : SpellDict) (tokens : List String) (s : String) (n : Nat),
      is_candidate_word s = true →
      spell.unknown (pyLower s) = true →
      tokens.count s = n →
      (analyze_and_correct spell tokens).misspelled.count s = n ∧
      (analyze_and_correct spell tokens).error_count =
        (analyze_and_correct spell tokens).misspelled.length ∧
      (∀ idx : Nat, tokens[idx]? = some s →
        (analyze_and_correct spell tokens).corrected[idx]? =
          some (restoreCasing s (sugOf spell s))) ∧
      (0 < n →
        (analyze_and_correct spell tokens).corrections.countP (fun kv => kv.1 = s) = 1 ∧
        (s, sugOf spell s) ∈ (analyze_and_correct spell tokens).corrections) := by
  intro spell tokens s n hc hu hcount
  refine ⟨?_, analyze_error_count spell tokens, ?_, ?_⟩
  · rw [analyze_misspelled, List.count_filter (by simp [hc, hu])]
    exact hcount
  · intro idx hg
    obtain ⟨hlt, _⟩ := List.getElem?_eq_some.1 hg
    rw [analyze_corrected_set spell tokens (candidatePairs_of_mem hg hc) hu hlt]
    rw [getD_of_getElem hg]
    rfl
  · intro hn
    have hmem : s ∈ tokens := by
      have hpos : 0 < tokens.count s := hcount ▸ hn
      exact List.count_pos_iff.1 hpos
    obtain ⟨idx, hg⟩ := List.mem_iff_getElem?.1 hmem
    have hkey : (s, sugOf spell s) ∈ (analyze_and_correct spell tokens).corrections := by
      have := analyze_corrections_key spell tokens (candidatePairs_of_mem hg hc) hu
      rwa [getD_of_getElem hg] at this
    refine ⟨?_, hkey⟩
    have hnodup : ((analyze_and_correct spell tokens).corrections.map Prod.fst).Nodup :=
      foldl_corrections_nodup spell tokens (candidatePairs tokens) _ List.nodup_nil
    have hkmem : s ∈ (analyze_and_correct spell tokens).corrections.map Prod.fst :=
      List.mem_map.2 ⟨(s, sugOf spell s), hkey, rfl⟩
    have h1 := countP_eq_one_of_nodup_mem hnodup hkmem
    rw [List.countP_map] at h1
    exact h1

/-- Witness for C5 with `helo` occurring twice. -/
theorem C5_duplicate_surface_witness :
    (analyze_and_correct dictHelo ["helo", "helo"]).misspelled.count "helo" = 2 ∧
    (analyze_and_correct dictHelo ["helo", "helo"]).corrections.countP
      (fun kv => kv.1 = "helo") = 1 := by
  have h := C5_duplicate_surface dictHelo ["helo", "helo"] "helo" 2
    (by decide) (by decide) (by decide)
  exact ⟨h.1, (h.2.2.2 (by decide)).1⟩

/-- C9: when the dictionary recognizes every candidate token of the
corrected output, a second run of the corrector on it reports zero errors,
empty corrections and misspelled list, and leaves the tokens unchanged. -/
theorem C9_second_run_clean :
    ∀ (spell : SpellDict) (tokens0 : List String),
      (∀ t ∈ (analyze_and_correct spell tokens0).corrected,
          is_candidate_word t = true → spell.unknown (pyLower t) = false) →
      analyze_and_correct spell ((analyze_and_correct spell tokens0).corrected) =
        { corrected := (analyze_and_correct spell tokens0).corrected
          corrections := []
          error_count := 0
          misspelled := [] } := by
  intro spell tokens0 hrec
  apply foldl_id
  intro p hp
  obtain ⟨t, hg, hc, hw⟩ := mem_candidatePairs
    (show (p.1, p.2) ∈ candidatePairs (analyze_and_correct spell tokens0).corrected
      by simpa using hp)
  rw [hw]
  exact hrec t (mem_of_getElem_opt hg) hc

/-- Witness for C9: correcting `helo` to `hello` and re-running. -/
theorem C9_second_run_clean_witness :
    analyze_and_correct dictHelo (analyze_and_correct dictHelo ["helo"]).corrected =
      { corrected := (analyze_and_correct dictHelo ["helo"]).corrected
        corrections := []
        error_count := 0
        misspelled := [] } :=
  C9_second_run_clean dictHelo ["helo"] (by decide)

/-- C10: the corrector only rewrites tokens at misspelled candidate
positions; every other token reaches detokenization unchanged, the error
count never exceeds the candidate word count of the input text, and the
error rate never exceeds 100 percent. -/
theorem C10_frame_and_bound :
    (∀ (spell : SpellDict) (tokenizeF : String → List String) (T : String)
        (idx : Nat) (t : String),
        (tokenizeF T)[idx]? = some t →
        (is_candidate_word t = false ∨ spell.unknown (pyLower t) = false) →
        (analyze_and_correct spell (tokenizeF T)).corrected[idx]? = some t) ∧
    (∀ (spell : SpellDict) (tokenizeF : String → List String) (T : String),
        (analyze_and_correct spell (tokenizeF T)).error_count ≤
          count_real_words tokenizeF T ∧
        error_rate (analyze_and_correct spell (tokenizeF T)).error_count
          (count_real_words tokenizeF T) ≤ 100) := by
  constructor
  · intro spell tokenizeF T idx t hg hcase
    show (analyze_and_correct spell (tokenizeF T)).corrected[idx]? = some t
    unfold analyze_and_correct
    rw [foldl_corrected_frame spell (tokenizeF T) _ _ idx ?_]
    · exact hg
    · intro p hp hup hpj
      obtain ⟨t2, hg2, hc2, hw2⟩ := mem_candidatePairs
        (show (p.1, p.2) ∈ candidatePairs (tokenizeF T) by simpa using hp)
      rw [hpj, hg] at hg2
      obtain rfl := Option.some.inj hg2
      rcases hcase with h | h
      · rw [hc2] at h
        exact Bool.true_eq_false ▸ h
      · rw [hw2] at hup
        rw [hup] at h
        exact Bool.true_eq_false ▸ h
  · intro spell tokenizeF T
    exact ⟨analyze_error_le spell (tokenizeF T),
      error_rate_le_100 (analyze_error_le spell (tokenizeF T))⟩

/-- Witness for C10: a known candidate and the rate bound on a concrete
document. -/
theorem C10_frame_and_bound_witness :
    (analyze_and_correct dictTehThe (wsTokenize "Teh quick fox")).corrected[1]? =
      some "quick" ∧
    error_rate (analyze_and_correct dictTehThe (wsTokenize "Teh quick fox")).error_count
      (count_real_words wsTokenize "Teh quick fox") ≤ 100 :=
  ⟨C10_frame_and_bound.1 dictTehThe wsTokenize "Teh quick fox" 1 "quick"
      (by decide) (Or.inr (by decide)),
    (C10_frame_and_bound.2 dictTehThe wsTokenize "Teh quick fox").2⟩

/-- C8: the end-to-end scenario on `Teh quick fox` with a dictionary
recognizing `quick` and `fox` but not `teh`: corrected text
`The quick fox`, one error among three candidate words, rate `33.33%`,
corrections `Teh → the`, misspelled list `[Teh]`. -/
theorem C8_end_to_end :
    spaceDetok (analyze_and_correct dictTehThe (wsTokenize "Teh quick fox")).corrected =
      "The quick fox" ∧
    (analyze_and_correct dictTehThe (wsTokenize "Teh quick fox")).error_count = 1 ∧
    count_real_words wsTokenize "Teh quick fox" = 3 ∧
    format2f (error_rate
      (analyze_and_correct dictTehThe (wsTokenize "Teh quick fox")).error_count
      (count_real_words wsTokenize "Teh quick fox")) = "33.33%" ∧
    (analyze_and_correct dictTehThe (wsTokenize "Teh quick fox")).corrections =
      [("Teh", "the")] ∧
    (analyze_and_correct dictTehThe (wsTokenize "Teh quick fox")).misspelled = ["Teh"] := by
  have h1 : (analyze_and_correct dictTehThe (wsTokenize "Teh quick fox")).error_count = 1 :=
    by decide
  have h2 : count_real_words wsTokenize "Teh quick fox" = 3 := by decide
  refine ⟨by decide, h1, h2, ?_, by decide, by decide⟩
  rw [h1, h2]
  have h : Int.floor (error_rate 1 3 * 100 + 1 / 2) = (3333 : Int) := by
    norm_num [error_rate]
  rw [format2f, h]
  decide
